import Mathlib

/-!
Shallow embedding of `qcmon/utilities.py` (masked voxel extraction, ROI mean
time series, correlation graph, signal scaling), together with theorems
checking the specification's claims against it.

Modelling conventions:
* a 2D numpy array of shape (N, T) is a `List (List ℚ)` of N rows;
* a mask of shape (N, 1) is likewise a `List (List ℚ)` whose rows are
  singletons (numpy's `shape[1]` is the length of a row, `shape1` below);
* python exceptions are `Except MaskErr`, with the error taxonomy of the
  specification (ShapeMismatch / InvalidMask / InvalidArgument);
* the dynamically typed `threshold` argument (bare scalar or list) is the
  tagged union `Thresh`;
* numpy float NaN, which arises only as the `nanmean` of an empty
  selection, is `Option.none` in the per-timepoint means;
* `np.corrcoef` is computed over `ℝ` (exact arithmetic in place of
  floats); its inner sums stay in `ℚ` and only the final square roots
  live in `ℝ`.
-/

namespace Utilities

/-- Error taxonomy of the specification for exceptions raised by the code. -/
inductive MaskErr : Type
  | ShapeMismatch
  | InvalidMask
  | InvalidArgument
  deriving DecidableEq, Repr

/-- The dynamically typed `threshold` argument: either a bare scalar
(rejected by `maskdata`) or a list of threshold values. -/
inductive Thresh : Type
  | scalar (t : ℚ)
  | list (ts : List ℚ)

/-- numpy `shape[1]` of a list-of-rows matrix (rows are rectangular in
numpy, so the first row's length is the column count). -/
def shape1 (m : List (List ℚ)) : ℕ :=
  (m.headD []).length

/-- Model of `check_dims(data, mask)`: data and mask must have the same number of
voxels (rows); raises otherwise. -/
def check_dims (data mask : List (List ℚ)) : Except MaskErr Unit :=
  if data.length ≠ mask.length then .error .ShapeMismatch else .ok ()

/-- Model of `check_mask(mask)`: the mask must not contain more than one value per
voxel (`np.shape(mask)[1] > 1` raises). -/
def check_mask (mask : List (List ℚ)) : Except MaskErr Unit :=
  if 1 < shape1 mask then .error .InvalidMask else .ok ()

/-- One comparison `mask <op> t` for a single mask entry, per rule token
(`'='`, `'>'`, `'<'`; only called after the rule has been validated). -/
def ruleHolds (rule : String) (x t : ℚ) : Bool :=
  if rule = "=" then decide (x = t)
  else if rule = ">" then decide (t < x)
  else decide (x < t)

/-- Model of `np.where(mask <op> t)[0]` on an (N, k) mask: the ascending list of row
indices having some entry that satisfies the comparison. -/
def whereRule (mask : List (List ℚ)) (rule : String) (t : ℚ) : List ℕ :=
  (List.range mask.length).filter (fun i => (mask.getD i []).any (fun x => ruleHolds rule x t))

/-- Model of `np.unique`: the ascending list of the distinct elements of `l`. -/
def npUnique {α : Type} [LinearOrder α] (l : List α) : List α :=
  l.dedup.insertionSort (fun a b => a ≤ b)

/-- The set `idx_zeros`: the row indices whose time series sums to zero
(`np.where(np.sum(data, axis=1) == 0)[0]`). -/
def idx_zeros (data : List (List ℚ)) : List ℕ :=
  (List.range data.length).filter (fun i => decide ((data.getD i []).sum = 0))

/-- The index computation of `maskdata` once all checks have passed: union
the per-threshold matches (`np.unique ∘ np.append` each round), then remove
the zero-sum rows (`np.setdiff1d(idx, idx_zeros)`). -/
def maskIdx (data mask : List (List ℚ)) (rule : String) (ts : List ℚ) : List ℕ :=
  (ts.foldl (fun acc t => npUnique (acc ++ whereRule mask rule t)) []).filter
    (fun i => decide (i ∉ idx_zeros data))

/-- Model of `maskdata(data, mask, rule, threshold)`: validates shapes, the rule
token and that the threshold is a list, then returns the selected rows
together with the selected indices. -/
def maskdata (data mask : List (List ℚ)) (rule : String) (threshold : Thresh) :
    Except MaskErr (List (List ℚ) × List ℕ) :=
  match check_dims data mask with
  | .error e => .error e
  | .ok _ =>
    match check_mask mask with
    | .error e => .error e
    | .ok _ =>
      if ¬(rule = "=" ∨ rule = ">" ∨ rule = "<") then .error .InvalidArgument
      else
        match threshold with
        | .scalar _ => .error .InvalidArgument
        | .list ts =>
          let idx := maskIdx data mask rule ts
          .ok (idx.map (fun i => data.getD i []), idx)

/-- Model of `np.nanmean(d, axis=0)` on a (k, T) selection with NaN-free entries:
per column, the mean of the k entries, or NaN (`none`) when k = 0. -/
def nanmean_cols (d : List (List ℚ)) (T : ℕ) : List (Option ℚ) :=
  (List.range T).map (fun j =>
    if d.length = 0 then none
    else some ((d.map (fun r => r.getD j 0)).sum / (d.length : ℚ)))

/-- Model of `get_mean_roi(data, mask, val)`: mean time series over the voxels whose
mask value equals `val`.  The source wraps an integer `val` into `[val]`
and passes `threshold=[val]`; for a single value the numpy broadcast
`mask == [v]` coincides with `mask == v`, so the selection is the one of
`maskdata` with rule `'='` and thresholds `[val]`. -/
def get_mean_roi (data mask : List (List ℚ)) (val : ℚ) :
    Except MaskErr (List (Option ℚ)) :=
  match maskdata data mask ("=") (Thresh.list [val]) with
  | .error e => .error e
  | .ok dc => .ok (nanmean_cols dc.1 (shape1 data))

theorem shape1_le_one {mask : List (List ℚ)} (hm : ∀ r ∈ mask, r.length = 1) :
    shape1 mask ≤ 1 := by
  cases mask with
  | nil => simp [shape1]
  | cons r rs =>
    have : r.length = 1 := hm r (by simp)
    simp [shape1, this]

theorem npUnique_sorted {α : Type} [LinearOrder α] (l : List α) :
    (npUnique l).Sorted (· < ·) := by
  have hs : (npUnique l).Sorted (fun a b => a ≤ b) :=
    List.sorted_insertionSort _ l.dedup
  have hnd : (npUnique l).Nodup :=
    ((List.perm_insertionSort _ l.dedup).nodup_iff).mpr (List.nodup_dedup l)
  exact (hs.and hnd).imp (fun h => lt_of_le_of_ne h.1 h.2)

theorem mem_npUnique {α : Type} [LinearOrder α] {a : α} {l : List α} :
    a ∈ npUnique l ↔ a ∈ l := by
  unfold npUnique
  rw [(List.perm_insertionSort _ l.dedup).mem_iff]
  exact List.mem_dedup

theorem npUnique_eq_self {α : Type} [LinearOrder α] {l : List α}
    (h : l.Sorted (· < ·)) : npUnique l = l := by
  unfold npUnique
  rw [List.dedup_eq_self.mpr h.nodup]
  exact List.Sorted.insertionSort_eq (h.imp le_of_lt)

theorem whereRule_sorted (mask : List (List ℚ)) (rule : String) (t : ℚ) :
    (whereRule mask rule t).Sorted (· < ·) :=
  List.Pairwise.sublist (List.filter_sublist _) (List.pairwise_lt_range _)

theorem mem_whereRule_lt {mask : List (List ℚ)} {rule : String} {t : ℚ} {i : ℕ}
    (h : i ∈ whereRule mask rule t) : i < mask.length := by
  have := List.mem_of_mem_filter h
  simpa using this

/-- The list `maskIdx` always returns a strictly increasing list of in-range row
indices, none of which indexes a zero-sum row. -/
theorem maskIdx_spec (data mask : List (List ℚ)) (rule : String) (ts : List ℚ)
    (hdm : data.length = mask.length) :
    (maskIdx data mask rule ts).Sorted (· < ·) ∧
      ∀ i ∈ maskIdx data mask rule ts, (data.getD i []).sum ≠ 0 := by
  unfold maskIdx
  set step := fun (acc : List ℕ) (t : ℚ) => npUnique (acc ++ whereRule mask rule t) with hstep
  have inv : ∀ (l : List ℚ) (acc : List ℕ), acc.Sorted (· < ·) →
      (∀ i ∈ acc, i < mask.length) →
      (l.foldl step acc).Sorted (· < ·) ∧ ∀ i ∈ l.foldl step acc, i < mask.length := by
    intro l
    induction l with
    | nil => intro acc h1 h2; exact ⟨h1, h2⟩
    | cons t l ih =>
      intro acc _ h2
      refine ih (step acc t) (npUnique_sorted _) ?_
      intro i hi
      rcases List.mem_append.mp (mem_npUnique.mp hi) with h | h
      · exact h2 i h
      · exact mem_whereRule_lt h

  obtain ⟨hsort, hrange⟩ := inv ts [] (by simp) (by simp)
  constructor
  · exact hsort.filter _
  · intro i hi
    have hmem := List.mem_of_mem_filter hi
    have hp : i ∉ idx_zeros data := by simpa using List.of_mem_filter hi
    have hilt : i < data.length := hdm ▸ hrange i hmem
    intro hsum
    exact hp (List.mem_filter.mpr ⟨List.mem_range.mpr hilt, by simpa using hsum⟩)

/-- C1: with the preconditions satisfied (matching voxel counts, one mask
value per voxel, a valid rule token, thresholds given as a list), `maskdata`
succeeds and returns a deduplicated, strictly increasing index list from
which every zero-sum voxel has been removed, and the returned rows are
exactly the original rows at those indices in that ascending order. -/
theorem maskdata_selection_valid (data mask : List (List ℚ)) (rule : String) (ts : List ℚ)
    (hdm : data.length = mask.length) (hm : ∀ r ∈ mask, r.length = 1)
    (hrule : rule = "=" ∨ rule = ">" ∨ rule = "<") :
    ∃ d idx, maskdata data mask rule (Thresh.list ts) = .ok (d, idx) ∧
      idx.Sorted (· < ·) ∧ idx.Nodup ∧
      (∀ i ∈ idx, (data.getD i []).sum ≠ 0) ∧
      d = idx.map (fun i => data.getD i []) := by
  obtain ⟨hsort, hzero⟩ := maskIdx_spec data mask rule ts hdm
  refine ⟨(maskIdx data mask rule ts).map (fun i => data.getD i []),
    maskIdx data mask rule ts, ?_, hsort, hsort.nodup, hzero, rfl⟩
  unfold maskdata check_dims check_mask
  have h1 : ¬ data.length ≠ mask.length := by simpa using hdm
  have h2 : ¬ 1 < shape1 mask := by
    exact not_lt.mpr (shape1_le_one hm)
  simp [h1, h2, hrule]

/-- Concrete instance of the C1 theorem: 3 voxels, row 1 sums to zero and is
dropped even though its mask value exceeds the threshold. -/
theorem maskdata_selection_valid_witness :
    ∃ d idx,
      maskdata [[1, 2], [0, 0], [3, 4]] [[1], [1], [1]] (">") (Thresh.list [0]) = .ok (d, idx) ∧
      idx.Sorted (· < ·) ∧ idx.Nodup ∧
      (∀ i ∈ idx, (([[1, 2], [0, 0], [3, 4]] : List (List ℚ)).getD i []).sum ≠ 0) ∧
      d = idx.map (fun i => ([[1, 2], [0, 0], [3, 4]] : List (List ℚ)).getD i []) :=
  maskdata_selection_valid [[1, 2], [0, 0], [3, 4]] [[1], [1], [1]] (">") [0]
    (by decide) (by decide) (by simp)

/-- C5: with the shape preconditions satisfied, `maskdata` fails with
`InvalidArgument` exactly when the rule token is not one of `'='`, `'>'`,
`'<'` or the thresholds argument is a bare scalar instead of a list; the
`Except` error means no output is produced. -/
theorem maskdata_invalid_argument_iff (data mask : List (List ℚ)) (rule : String)
    (th : Thresh) (hdm : data.length = mask.length) (hm : ∀ r ∈ mask, r.length = 1) :
    maskdata data mask rule th = .error .InvalidArgument ↔
      (¬(rule = "=" ∨ rule = ">" ∨ rule = "<") ∨ ∃ t, th = Thresh.scalar t) := by
  unfold maskdata check_dims check_mask
  have h1 : ¬ data.length ≠ mask.length := by simpa using hdm
  have h2 : ¬ 1 < shape1 mask := not_lt.mpr (shape1_le_one hm)
  rcases th with t | ts
  · by_cases hr : rule = "=" ∨ rule = ">" ∨ rule = "<" <;> simp [h1, h2, hr]
  · by_cases hr : rule = "=" ∨ rule = ">" ∨ rule = "<" <;> simp [h1, h2, hr]

/-- Concrete instance of the C5 theorem: a bare-scalar threshold is
rejected with `InvalidArgument`. -/
theorem maskdata_invalid_argument_witness :
    maskdata [[1]] [[1]] ("=") (Thresh.scalar 5) = .error .InvalidArgument :=
  (maskdata_invalid_argument_iff [[1]] [[1]] ("=") (Thresh.scalar 5) rfl
    (by decide)).mpr (Or.inr ⟨5, rfl⟩)

/-- Model of `np.mean(r)`: arithmetic mean of one row. -/
def rowMean (r : List ℚ) : ℚ :=
  r.sum / (r.length : ℚ)

/-- Model of `translate(data, factors)`: raises when more than one factor is given
and the count differs from the number of rows; divides by the single factor
when exactly one is given; divides each row by its own mean when none are
given; otherwise (several factors, matching count) falls through both
branches and returns the data unchanged. -/
def translate (data : List (List ℚ)) (factors : List ℚ) :
    Except MaskErr (List (List ℚ)) :=
  if 1 < factors.length ∧ data.length ≠ factors.length then .error .ShapeMismatch
  else if factors.length = 1 then
    .ok (data.map (fun r => r.map (fun x => x / factors.getD 0 0)))
  else if factors.length = 0 then
    .ok (data.map (fun r => r.map (fun x => x / rowMean r)))
  else .ok data

/-- C3 (code bug): per-voxel factors of matching length are accepted but
never applied — `translate` returns the data unchanged instead of dividing
each row by its factor, contradicting its own docstring («Scales each time
series … by a … set of factors of length equivalent to the number of input
voxels»).  The length check itself does raise on a mismatch. -/
theorem translate_pervoxel_factors_noop :
    translate [[2, 4], [6, 8]] [2, 2] = .ok [[2, 4], [6, 8]] ∧
    translate [[2, 4], [6, 8]] [2, 2] ≠ .ok [[1, 2], [3, 4]] ∧
    translate [[2, 4], [6, 8]] [2, 2, 2] = .error .ShapeMismatch := by
  refine ⟨rfl, ?_, rfl⟩
  simp [translate]

/-- C4: with no factors, `translate` divides each row element-wise by that
row's own mean (it does not subtract the mean). -/
theorem translate_empty_divides_by_row_mean (data : List (List ℚ))
    (h : ∀ r ∈ data, rowMean r ≠ 0) :
    translate data [] = .ok (data.map (fun r => r.map (fun x => x / rowMean r))) := by
  unfold translate
  simp

/-- Concrete instance of the C4 theorem: the row `[2,4,6]` (mean 4) maps to
`[1/2, 1, 3/2]`. -/
theorem translate_empty_witness :
    (∀ r ∈ ([[2, 4, 6]] : List (List ℚ)), rowMean r ≠ 0) ∧
    translate [[2, 4, 6]] [] = .ok [[1/2, 1, 3/2]] := by
  have hmean : ∀ r ∈ ([[2, 4, 6]] : List (List ℚ)), rowMean r ≠ 0 := by
    intro r hr
    simp only [List.mem_singleton] at hr
    subst hr
    norm_num [rowMean]
  refine ⟨hmean, ?_⟩
  rw [translate_empty_divides_by_row_mean [[2, 4, 6]] hmean]
  norm_num [rowMean]

/-- With the preconditions satisfied and a valid rule, `maskdata` succeeds
and returns the `maskIdx` selection. -/
theorem maskdata_ok (data mask : List (List ℚ)) (rule : String) (ts : List ℚ)
    (hdm : data.length = mask.length) (hm : ∀ r ∈ mask, r.length = 1)
    (hrule : rule = "=" ∨ rule = ">" ∨ rule = "<") :
    maskdata data mask rule (Thresh.list ts) =
      .ok ((maskIdx data mask rule ts).map (fun i => data.getD i []),
           maskIdx data mask rule ts) := by
  unfold maskdata check_dims check_mask
  have h1 : ¬ data.length ≠ mask.length := by simpa using hdm
  have h2 : ¬ 1 < shape1 mask := not_lt.mpr (shape1_le_one hm)
  simp [h1, h2, hrule]

/-- For a single threshold, the `np.unique`/append loop reduces to the one
`np.where` call. -/
theorem maskIdx_single_eq (data mask : List (List ℚ)) (rule : String) (v : ℚ) :
    maskIdx data mask rule [v] =
      (whereRule mask rule v).filter (fun i => decide (i ∉ idx_zeros data)) := by
  unfold maskIdx
  simp only [List.foldl_cons, List.foldl_nil, List.nil_append]
  rw [npUnique_eq_self (whereRule_sorted mask rule v)]

theorem mem_idx_zeros {data : List (List ℚ)} {i : ℕ} :
    i ∈ idx_zeros data ↔ i < data.length ∧ (data.getD i []).sum = 0 := by
  unfold idx_zeros
  simp [List.mem_filter, List.mem_range]

/-- The specification's direct description of the region mean, written from
the spec's words (not from `maskdata`): the column-wise mean over all rows
whose mask value equals `v`. -/
def directMeanROI (data mask : List (List ℚ)) (v : ℚ) : List (Option ℚ) :=
  nanmean_cols
    (((List.range data.length).filter
        (fun i => decide ((mask.getD i []).getD 0 0 = v))).map (fun i => data.getD i []))
    (shape1 data)

/-- C2 fails as stated: voxel 0 has mask value 1 but a zero-sum time series
`[1, -1]`, so `get_mean_roi` drops it while the direct mean over rows with
mask value 1 keeps it. -/
theorem get_mean_roi_ne_direct_counterexample :
    get_mean_roi [[1, -1], [3, 3]] [[1], [1]] 1 ≠
      Except.ok (directMeanROI [[1, -1], [3, 3]] [[1], [1]] 1) := by
  norm_num [get_mean_roi, maskdata, check_dims, check_mask, shape1, maskIdx,
    idx_zeros, whereRule, ruleHolds, npUnique, nanmean_cols, directMeanROI,
    List.insertionSort, List.orderedInsert, List.dedup, List.range_succ]

/-- C2 amended: the refinement holds once the rows that `maskdata`
unconditionally removes are absent, i.e. when every row whose mask value
equals `v` has a nonzero time-series sum. -/
theorem get_mean_roi_eq_direct (data mask : List (List ℚ)) (v : ℚ)
    (hdm : data.length = mask.length) (hm : ∀ r ∈ mask, r.length = 1)
    (hz : ∀ i, i < data.length → (mask.getD i []).getD 0 0 = v →
      (data.getD i []).sum ≠ 0) :
    get_mean_roi data mask v = .ok (directMeanROI data mask v) := by
  have hmd := maskdata_ok data mask ("=") [v] hdm hm (Or.inl rfl)
  have hidx : maskIdx data mask ("=") [v] =
      (List.range data.length).filter
        (fun i => decide ((mask.getD i []).getD 0 0 = v)) := by
    rw [maskIdx_single_eq]
    unfold whereRule
    rw [← hdm, List.filter_filter]
    apply List.filter_congr
    intro i hi
    have hiN : i < data.length := List.mem_range.mp hi
    have hrow : ∃ x, mask.getD i [] = [x] := by
      have hiM : i < mask.length := by omega
      have hmem : mask.getD i [] ∈ mask := by
        rw [List.getD_eq_getElem mask [] hiM]
        exact List.getElem_mem hiM
      have hlen := hm _ hmem
      cases hr : mask.getD i [] with
      | nil => rw [hr] at hlen; simp at hlen
      | cons x xs =>
        rw [hr] at hlen
        simp at hlen
        exact ⟨x, by rw [hlen]⟩
    obtain ⟨x, hx⟩ := hrow
    rw [hx]
    by_cases hxv : x = v
    · have hsum : (data.getD i []).sum ≠ 0 := by
        apply hz i hiN
        rw [hx]
        simpa using hxv
      have hnin : i ∉ idx_zeros data := by
        rw [mem_idx_zeros]
        rintro ⟨-, hs⟩
        exact hsum hs
      simp [hxv, ruleHolds, hnin]
    · simp [hxv, ruleHolds]
  unfold get_mean_roi directMeanROI
  rw [hmd, hidx]

/-- Concrete instance of the amended C2 theorem: two voxels with distinct
labels and nonzero row sums. -/
theorem get_mean_roi_eq_direct_witness :
    get_mean_roi [[1, 2], [3, 4]] [[1], [2]] 1 =
      .ok (directMeanROI [[1, 2], [3, 4]] [[1], [2]] 1) := by
  apply get_mean_roi_eq_direct
  · rfl
  · decide
  · intro i hi hv
    have hi2 : i < 2 := by simpa using hi
    interval_cases i <;> norm_num at hv ⊢

/-- C6: when the voxel selection (after the constant-zero exclusion) is
empty, `get_mean_roi` returns one NaN per timepoint (`np.nanmean` over an
empty (0, T) selection) instead of raising an exception. -/
theorem get_mean_roi_empty_nan (data mask : List (List ℚ)) (val : ℚ)
    (h : maskdata data mask ("=") (Thresh.list [val]) = .ok ([], [])) :
    get_mean_roi data mask val = .ok (List.replicate (shape1 data) none) := by
  unfold get_mean_roi
  rw [h]
  unfold nanmean_cols
  simp

/-- Concrete instance of the C6 theorem: the only voxel with mask value 1
has the constant-zero series `[0, 0]`, so the selection is empty and the
result is a NaN for each of the two timepoints. -/
theorem get_mean_roi_empty_nan_witness :
    get_mean_roi [[0, 0]] [[1]] 1 = .ok (List.replicate (shape1 [[0, 0]]) none) := by
  apply get_mean_roi_empty_nan
  norm_num [maskdata, check_dims, check_mask, shape1, maskIdx, idx_zeros,
    whereRule, ruleHolds, npUnique, List.insertionSort, List.orderedInsert,
    List.dedup, List.range_succ]

/-- The region list of `roi_graph`:
`filter(lambda x: x > 0, np.unique(mask))` — the distinct mask values
strictly greater than zero, ascending (`np.unique` flattens and sorts). -/
def rois (mask : List (List ℚ)) : List ℚ :=
  (npUnique mask.flatten).filter (fun x => decide (0 < x))

/-- C7: the region list is strictly increasing (hence deduplicated, with
row i of the output holding the i-th smallest positive label), and contains
exactly the mask values that are strictly positive; zero and negative
labels are excluded. -/
theorem rois_sorted_positive (mask : List (List ℚ)) :
    (rois mask).Sorted (· < ·) ∧ (rois mask).Nodup ∧
      ∀ x, x ∈ rois mask ↔ (x ∈ mask.flatten ∧ 0 < x) := by
  have hs : (rois mask).Sorted (· < ·) := (npUnique_sorted _).filter _
  refine ⟨hs, hs.nodup, ?_⟩
  intro x
  unfold rois
  rw [List.mem_filter, mem_npUnique]
  simp

/-- Model of `np.min` of a series (numpy reduces over the elements; the empty case,
an error in numpy, is given the junk value 0 and is outside every claim). -/
def tsMin : List ℚ → ℚ
  | [] => 0
  | x :: xs => xs.foldl min x

/-- Model of `np.max` of a series, as `tsMin`. -/
def tsMax : List ℚ → ℚ
  | [] => 0
  | x :: xs => xs.foldl max x

/-- Model of `scale_timeseries(ts)`: subtract the minimum, then divide by the
maximum of the shifted series. -/
def scale_timeseries (ts : List ℚ) : List ℚ :=
  (ts.map (fun x => x - tsMin ts)).map
    (fun x => x / tsMax (ts.map (fun y => y - tsMin ts)))

theorem foldl_min_map (f : ℚ → ℚ) (hf : ∀ a b, f (min a b) = min (f a) (f b))
    (xs : List ℚ) : ∀ x : ℚ, (xs.map f).foldl min (f x) = f (xs.foldl min x) := by
  induction xs with
  | nil => intro x; rfl
  | cons y ys ih =>
    intro x
    simp only [List.map_cons, List.foldl_cons]
    rw [← hf, ih (min x y)]

theorem foldl_max_map (f : ℚ → ℚ) (hf : ∀ a b, f (max a b) = max (f a) (f b))
    (xs : List ℚ) : ∀ x : ℚ, (xs.map f).foldl max (f x) = f (xs.foldl max x) := by
  induction xs with
  | nil => intro x; rfl
  | cons y ys ih =>
    intro x
    simp only [List.map_cons, List.foldl_cons]
    rw [← hf, ih (max x y)]

theorem tsMin_map (f : ℚ → ℚ) (hf : ∀ a b, f (min a b) = min (f a) (f b))
    (l : List ℚ) (hl : l ≠ []) : tsMin (l.map f) = f (tsMin l) := by
  cases l with
  | nil => exact absurd rfl hl
  | cons x xs =>
    simp only [List.map_cons, tsMin]
    exact foldl_min_map f hf xs x

theorem tsMax_map (f : ℚ → ℚ) (hf : ∀ a b, f (max a b) = max (f a) (f b))
    (l : List ℚ) (hl : l ≠ []) : tsMax (l.map f) = f (tsMax l) := by
  cases l with
  | nil => exact absurd rfl hl
  | cons x xs =>
    simp only [List.map_cons, tsMax]
    exact foldl_max_map f hf xs x

theorem foldl_min_le (xs : List ℚ) :
    ∀ a : ℚ, xs.foldl min a ≤ a ∧ ∀ x ∈ xs, xs.foldl min a ≤ x := by
  induction xs with
  | nil => intro a; exact ⟨le_refl a, by simp⟩
  | cons y ys ih =>
    intro a
    obtain ⟨h1, h2⟩ := ih (min a y)
    simp only [List.foldl_cons]
    refine ⟨le_trans h1 (min_le_left a y), ?_⟩
    intro x hx
    rcases List.mem_cons.mp hx with rfl | hx
    · exact le_trans h1 (min_le_right a x)
    · exact h2 x hx

theorem foldl_max_ge (xs : List ℚ) :
    ∀ a : ℚ, a ≤ xs.foldl max a ∧ ∀ x ∈ xs, x ≤ xs.foldl max a := by
  induction xs with
  | nil => intro a; exact ⟨le_refl a, by simp⟩
  | cons y ys ih =>
    intro a
    obtain ⟨h1, h2⟩ := ih (max a y)
    simp only [List.foldl_cons]
    refine ⟨le_trans (le_max_left a y) h1, ?_⟩
    intro x hx
    rcases List.mem_cons.mp hx with rfl | hx
    · exact le_trans (le_max_right a x) h1
    · exact h2 x hx

theorem tsMin_le_mem {l : List ℚ} {x : ℚ} (hx : x ∈ l) : tsMin l ≤ x := by
  cases l with
  | nil => simp at hx
  | cons y ys =>
    simp only [tsMin]
    rcases List.mem_cons.mp hx with rfl | hx
    · exact (foldl_min_le ys x).1
    · exact (foldl_min_le ys y).2 x hx

theorem mem_le_tsMax {l : List ℚ} {x : ℚ} (hx : x ∈ l) : x ≤ tsMax l := by
  cases l with
  | nil => simp at hx
  | cons y ys =>
    simp only [tsMax]
    rcases List.mem_cons.mp hx with rfl | hx
    · exact (foldl_max_ge ys x).1
    · exact (foldl_max_ge ys y).2 x hx

theorem min_sub_const (c a b : ℚ) : min a b - c = min (a - c) (b - c) := by
  rcases le_total a b with h | h
  · rw [min_eq_left h, min_eq_left (by linarith)]
  · rw [min_eq_right h, min_eq_right (by linarith)]

theorem max_sub_const (c a b : ℚ) : max a b - c = max (a - c) (b - c) := by
  rcases le_total a b with h | h
  · rw [max_eq_right h, max_eq_right (by linarith)]
  · rw [max_eq_left h, max_eq_left (by linarith)]

theorem min_div_const {c : ℚ} (hc : 0 < c) (a b : ℚ) :
    min a b / c = min (a / c) (b / c) := by
  rcases le_total a b with h | h
  · rw [min_eq_left h, min_eq_left (by apply div_le_div_of_nonneg_right h hc.le)]
  · rw [min_eq_right h, min_eq_right (by apply div_le_div_of_nonneg_right h hc.le)]

theorem max_div_const {c : ℚ} (hc : 0 < c) (a b : ℚ) :
    max a b / c = max (a / c) (b / c) := by
  rcases le_total a b with h | h
  · rw [max_eq_right h, max_eq_right (by apply div_le_div_of_nonneg_right h hc.le)]
  · rw [max_eq_left h, max_eq_left (by apply div_le_div_of_nonneg_right h hc.le)]

/-- C9: on a non-constant series, `scale_timeseries` brings the minimum to
0 and the maximum to 1, and applying it a second time to the already-scaled
series changes nothing. -/
theorem scale_timeseries_idempotent (ts : List ℚ)
    (h : ∃ a ∈ ts, ∃ b ∈ ts, a ≠ b) :
    tsMin (scale_timeseries ts) = 0 ∧ tsMax (scale_timeseries ts) = 1 ∧
      scale_timeseries (scale_timeseries ts) = scale_timeseries ts := by
  obtain ⟨a, ha, b, hb, hab⟩ := h
  have hne : ts ≠ [] := by
    intro hempty
    rw [hempty] at ha
    simp at ha
  have hminmax : tsMin ts < tsMax ts := by
    rcases lt_or_le (tsMin ts) (tsMax ts) with h | h
    · exact h
    · exfalso
      have h1 : tsMax ts ≤ tsMin ts := h
      have ha1 : a = tsMin ts :=
        le_antisymm (le_trans (mem_le_tsMax ha) h1) (tsMin_le_mem ha)
      have hb1 : b = tsMin ts :=
        le_antisymm (le_trans (mem_le_tsMax hb) h1) (tsMin_le_mem hb)
      exact hab (ha1.trans hb1.symm)
  set m := tsMin ts with hm
  set ts1 := ts.map (fun x => x - m) with hts1
  have hts1ne : ts1 ≠ [] := by
    rw [hts1]
    simpa using hne
  have hfmin : ∀ a b : ℚ, (fun x => x - m) (min a b) =
      min ((fun x => x - m) a) ((fun x => x - m) b) := by
    intro a b
    dsimp only
    exact min_sub_const m a b
  have hfmax : ∀ a b : ℚ, (fun x => x - m) (max a b) =
      max ((fun x => x - m) a) ((fun x => x - m) b) := by
    intro a b
    dsimp only
    exact max_sub_const m a b
  have hmin1 : tsMin ts1 = 0 := by
    rw [hts1, tsMin_map (fun x => x - m) hfmin ts hne]
    simp
  have hmax1 : tsMax ts1 = tsMax ts - m := by
    rw [hts1, tsMax_map (fun x => x - m) hfmax ts hne]
  have hMpos : 0 < tsMax ts1 := by
    rw [hmax1]
    linarith
  set M := tsMax ts1 with hM
  have hscale : scale_timeseries ts = ts1.map (fun x => x / M) := by
    rw [scale_timeseries]
  set s := ts1.map (fun x => x / M) with hs
  have hsne : s ≠ [] := by
    rw [hs]
    simpa using hts1ne
  have hfmind : ∀ a b : ℚ, (fun x => x / M) (min a b) =
      min ((fun x => x / M) a) ((fun x => x / M) b) := by
    intro a b
    dsimp only
    exact min_div_const hMpos a b
  have hfmaxd : ∀ a b : ℚ, (fun x => x / M) (max a b) =
      max ((fun x => x / M) a) ((fun x => x / M) b) := by
    intro a b
    dsimp only
    exact max_div_const hMpos a b
  have hsmin : tsMin s = 0 := by
    rw [hs, tsMin_map (fun x => x / M) hfmind ts1 hts1ne, hmin1]
    simp
  have hsmax : tsMax s = 1 := by
    rw [hs, tsMax_map (fun x => x / M) hfmaxd ts1 hts1ne]
    exact div_self (ne_of_gt hMpos)
  refine ⟨hscale ▸ hsmin, hscale ▸ hsmax, ?_⟩
  rw [hscale]
  have hshift : s.map (fun x => x - tsMin s) = s := by
    rw [hsmin]
    simp
  rw [scale_timeseries, hshift, hsmax]
  simp

/-- Concrete instance of the C9 theorem at the non-constant series
`[0, 2]`. -/
theorem scale_timeseries_idempotent_witness :
    tsMin (scale_timeseries [0, 2]) = 0 ∧ tsMax (scale_timeseries [0, 2]) = 1 ∧
      scale_timeseries (scale_timeseries [0, 2]) = scale_timeseries [0, 2] := by
  apply scale_timeseries_idempotent
  refine ⟨0, by norm_num, 2, by norm_num, by norm_num⟩

/-- Row-demeaning inside `np.cov`: subtract the row's mean from each entry. -/
def demean (x : List ℚ) : List ℚ :=
  x.map (fun a => a - x.sum / (x.length : ℚ))

/-- One entry of `np.cov` with the default ddof = 1: the sum of products of
deviations divided by T - 1 (T = number of timepoints). -/
def covQ (x y : List ℚ) : ℚ :=
  (List.zipWith (fun a b => a * b) (demean x) (demean y)).sum / ((x.length : ℚ) - 1)

/-- One entry of `np.corrcoef`: the covariance normalised by the square
roots of the two variances, in exact real arithmetic. -/
noncomputable def corrEntry (x y : List ℚ) : ℝ :=
  (covQ x y : ℝ) / (Real.sqrt (covQ x x) * Real.sqrt (covQ y y))

/-- Model of `np.corrcoef` of a stack of rows. -/
noncomputable def corrcoef (rows : List (List ℚ)) : List (List ℝ) :=
  rows.map (fun x => rows.map (fun y => corrEntry x y))

/-- NaN rendered as the real value 0.  A NaN (empty-selection) mean series
only occurs for a region whose variance hypothesis fails (its rendered
series is constant 0), and any fixed rendering leaves `corrcoef`
symmetric, so the claims below are unaffected by this choice. -/
def optVal (o : Option ℚ) : ℚ :=
  o.getD 0

/-- The time series `roi_graph` stores into `ts[i, :]` for one region:
`get_mean_roi` with NaN rendered as 0 (`optVal`); the error case cannot
occur once the shape preconditions hold. -/
def meanSeriesQ (data mask : List (List ℚ)) (v : ℚ) : List ℚ :=
  match get_mean_roi data mask v with
  | .error _ => []
  | .ok r => r.map optVal

/-- The sequential for-loop of `roi_graph` over regions: the first
exception from `get_mean_roi` aborts the loop. -/
def mapRegions (f : ℚ → Except MaskErr (List (Option ℚ))) :
    List ℚ → Except MaskErr (List (List (Option ℚ)))
  | [] => .ok []
  | r :: rs =>
    match f r with
    | .error e => .error e
    | .ok row =>
      match mapRegions f rs with
      | .error e => .error e
      | .ok rest => .ok (row :: rest)

/-- Model of `roi_graph(data, mask)`: one mean time series per distinct positive
label, stacked into a matrix, then `np.corrcoef` across the rows. -/
noncomputable def roi_graph (data mask : List (List ℚ)) :
    Except MaskErr (List (List ℝ)) :=
  match mapRegions (fun roi => get_mean_roi data mask roi) (rois mask) with
  | .error e => .error e
  | .ok ts => .ok (corrcoef (ts.map (fun row => row.map optVal)))

/-- The value `get_mean_roi` returns once the shape preconditions hold. -/
def roiMeanOpt (data mask : List (List ℚ)) (v : ℚ) : List (Option ℚ) :=
  nanmean_cols ((maskIdx data mask ("=") [v]).map (fun i => data.getD i []))
    (shape1 data)

theorem get_mean_roi_ok (data mask : List (List ℚ)) (v : ℚ)
    (hdm : data.length = mask.length) (hm : ∀ r ∈ mask, r.length = 1) :
    get_mean_roi data mask v = .ok (roiMeanOpt data mask v) := by
  unfold get_mean_roi roiMeanOpt
  rw [maskdata_ok data mask ("=") [v] hdm hm (Or.inl rfl)]

theorem mapRegions_ok (f : ℚ → Except MaskErr (List (Option ℚ)))
    (g : ℚ → List (Option ℚ)) (l : List ℚ) (hf : ∀ x ∈ l, f x = .ok (g x)) :
    mapRegions f l = .ok (l.map g) := by
  induction l with
  | nil => rfl
  | cons r rs ih =>
    unfold mapRegions
    rw [hf r (by simp), ih (fun x hx => hf x (by simp [hx]))]
    simp

theorem meanSeriesQ_eq (data mask : List (List ℚ)) (v : ℚ)
    (hdm : data.length = mask.length) (hm : ∀ r ∈ mask, r.length = 1) :
    meanSeriesQ data mask v = (roiMeanOpt data mask v).map optVal := by
  unfold meanSeriesQ
  rw [get_mean_roi_ok data mask v hdm hm]

theorem meanSeriesQ_length (data mask : List (List ℚ)) (v : ℚ)
    (hdm : data.length = mask.length) (hm : ∀ r ∈ mask, r.length = 1) :
    (meanSeriesQ data mask v).length = shape1 data := by
  rw [meanSeriesQ_eq data mask v hdm hm]
  unfold roiMeanOpt nanmean_cols
  simp

/-- Under the shape preconditions, `roi_graph` succeeds and its matrix is
`corrcoef` of the per-region mean series. -/
theorem roi_graph_ok (data mask : List (List ℚ))
    (hdm : data.length = mask.length) (hm : ∀ r ∈ mask, r.length = 1) :
    roi_graph data mask =
      .ok (corrcoef ((rois mask).map (fun v => meanSeriesQ data mask v))) := by
  unfold roi_graph
  rw [mapRegions_ok _ (fun v => roiMeanOpt data mask v) (rois mask)
    (fun v _ => get_mean_roi_ok data mask v hdm hm)]
  simp only [List.map_map]
  congr 1
  apply congrArg
  apply List.map_congr_left
  intro v hv
  exact (meanSeriesQ_eq data mask v hdm hm).symm

theorem covQ_self_nonneg (x : List ℚ) : 0 ≤ covQ x x := by
  have hnum : 0 ≤ (List.zipWith (fun a b => a * b) (demean x) (demean x)).sum := by
    rw [List.zipWith_same]
    apply List.sum_nonneg
    intro q hq
    obtain ⟨a, -, rfl⟩ := List.mem_map.mp hq
    exact mul_self_nonneg a
  unfold covQ
  rcases Nat.lt_or_ge x.length 2 with hlen | hlen
  · rcases x with - | ⟨a, - | ⟨b, t⟩⟩
    · simp [demean]
    · norm_num
    · simp only [List.length_cons] at hlen; omega
  · apply div_nonneg hnum
    have h2 : (2:ℚ) ≤ (x.length : ℚ) := by exact_mod_cast hlen
    linarith

theorem covQ_self_pos {x : List ℚ} (h : covQ x x ≠ 0) : 0 < covQ x x :=
  lt_of_le_of_ne (covQ_self_nonneg x) (Ne.symm h)

theorem corrEntry_self {x : List ℚ} (h : covQ x x ≠ 0) : corrEntry x x = 1 := by
  have hpos : 0 < covQ x x := covQ_self_pos h
  have hposR : (0:ℝ) < ((covQ x x : ℚ) : ℝ) := by exact_mod_cast hpos
  unfold corrEntry
  rw [Real.mul_self_sqrt hposR.le]
  exact div_self (ne_of_gt hposR)

theorem covQ_comm {x y : List ℚ} (hlen : x.length = y.length) :
    covQ x y = covQ y x := by
  unfold covQ
  rw [List.zipWith_comm_of_comm _ mul_comm, hlen]

theorem corrEntry_comm {x y : List ℚ} (hlen : x.length = y.length) :
    corrEntry x y = corrEntry y x := by
  unfold corrEntry
  rw [covQ_comm hlen, mul_comm]

theorem getD_map {α β : Type} (f : α → β) (l : List α) (i : ℕ)
    (hi : i < l.length) (d : α) (e : β) :
    (l.map f).getD i e = f (l.getD i d) := by
  rw [List.getD_eq_getElem _ _ (by simpa using hi), List.getElem_map,
    List.getD_eq_getElem _ _ hi]

theorem corrcoef_entry (rows : List (List ℚ)) {i j : ℕ}
    (hi : i < rows.length) (hj : j < rows.length) :
    ((corrcoef rows).getD i []).getD j 0 =
      corrEntry (rows.getD i []) (rows.getD j []) := by
  unfold corrcoef
  rw [getD_map _ rows i hi [] []]
  rw [getD_map _ rows j hj [] 0]

/-- C8: under the shape preconditions, `roi_graph` succeeds and every
diagonal entry (i, i) of its matrix equals 1 whenever region i's mean time
series has nonzero variance. -/
theorem roi_graph_diag_one (data mask : List (List ℚ))
    (hdm : data.length = mask.length) (hm : ∀ r ∈ mask, r.length = 1)
    (i : ℕ) (hi : i < (rois mask).length)
    (hvar : covQ (meanSeriesQ data mask ((rois mask).getD i 0))
        (meanSeriesQ data mask ((rois mask).getD i 0)) ≠ 0) :
    ∃ G, roi_graph data mask = .ok G ∧ (G.getD i []).getD i 0 = 1 := by
  refine ⟨_, roi_graph_ok data mask hdm hm, ?_⟩
  have hiM : i < ((rois mask).map (fun v => meanSeriesQ data mask v)).length := by
    simpa using hi
  rw [corrcoef_entry _ hiM hiM,
    getD_map (fun v => meanSeriesQ data mask v) (rois mask) i hi 0 []]
  exact corrEntry_self hvar

/-- C10: under the shape preconditions, `roi_graph` succeeds and its
correlation matrix is symmetric (out-of-range entries read as the default
0 on both sides). -/
theorem roi_graph_symmetric (data mask : List (List ℚ))
    (hdm : data.length = mask.length) (hm : ∀ r ∈ mask, r.length = 1) :
    ∃ G, roi_graph data mask = .ok G ∧
      ∀ i j, (G.getD i []).getD j 0 = (G.getD j []).getD i 0 := by
  refine ⟨_, roi_graph_ok data mask hdm hm, ?_⟩
  set M := (rois mask).map (fun v => meanSeriesQ data mask v) with hM
  have hMget : ∀ k, k < M.length →
      M.getD k [] = meanSeriesQ data mask ((rois mask).getD k 0) := by
    intro k hk
    rw [hM] at hk
    simp only [List.length_map] at hk
    rw [hM, getD_map (fun v => meanSeriesQ data mask v) (rois mask) k hk 0 []]
  have hClen : (corrcoef M).length = M.length := by
    unfold corrcoef
    simp
  intro i j
  by_cases hiM : i < M.length <;> by_cases hjM : j < M.length
  · rw [corrcoef_entry M hiM hjM, corrcoef_entry M hjM hiM]
    apply corrEntry_comm
    rw [hMget i hiM, hMget j hjM,
      meanSeriesQ_length data mask _ hdm hm, meanSeriesQ_length data mask _ hdm hm]
  · unfold corrcoef
    rw [getD_map _ M i hiM [] []]
    have h1 : (M.map (fun y => corrEntry (M.getD i []) y)).getD j 0 = 0 :=
      List.getD_eq_default _ _ (by simpa using not_lt.mp hjM)
    have h2 : (M.map (fun x => M.map (fun y => corrEntry x y))).getD j [] = [] :=
      List.getD_eq_default _ _ (by simpa using not_lt.mp hjM)
    rw [h1, h2]
    simp
  · unfold corrcoef
    rw [getD_map _ M j hjM [] []]
    have h1 : (M.map (fun y => corrEntry (M.getD j []) y)).getD i 0 = 0 :=
      List.getD_eq_default _ _ (by simpa using not_lt.mp hiM)
    have h2 : (M.map (fun x => M.map (fun y => corrEntry x y))).getD i [] = [] :=
      List.getD_eq_default _ _ (by simpa using not_lt.mp hiM)
    rw [h1, h2]
    simp
  · rw [List.getD_eq_default (corrcoef M) [] (by omega),
      List.getD_eq_default (corrcoef M) [] (by omega)]
    simp

/-- Concrete instance of the C8 theorem: two one-voxel regions; region 0
(label 1) has mean series `[1, 2]`, variance 1/2 ≠ 0, so entry (0,0) is 1. -/
theorem roi_graph_diag_one_witness :
    ∃ G, roi_graph [[1, 2], [3, 5]] [[1], [2]] = .ok G ∧ (G.getD 0 []).getD 0 0 = 1 := by
  have hrois : rois [[1], [2]] = [1, 2] := by
    norm_num [rois, npUnique, List.dedup, List.insertionSort, List.orderedInsert,
      List.pwFilter]
  have hseries : meanSeriesQ [[1, 2], [3, 5]] [[1], [2]] 1 = [1, 2] := by
    norm_num [meanSeriesQ, get_mean_roi, maskdata, check_dims, check_mask, shape1,
      maskIdx, idx_zeros, whereRule, ruleHolds, npUnique, List.insertionSort,
      List.orderedInsert, List.dedup, List.range_succ, nanmean_cols, optVal]
  apply roi_graph_diag_one [[1, 2], [3, 5]] [[1], [2]] rfl (by decide) 0
  · rw [hrois]
    norm_num
  · rw [hrois]
    norm_num [hseries, covQ, demean]

/-- Concrete instance of the C10 theorem at the off-diagonal pair (0, 1). -/
theorem roi_graph_symmetric_witness :
    ∃ G, roi_graph [[1, 2], [3, 5]] [[1], [2]] = .ok G ∧
      (G.getD 0 []).getD 1 0 = (G.getD 1 []).getD 0 0 := by
  obtain ⟨G, h1, h2⟩ := roi_graph_symmetric [[1, 2], [3, 5]] [[1], [2]] rfl (by decide)
  exact ⟨G, h1, h2 0 1⟩

end Utilities
